import Mathlib

/-!
Formal model of `kbd_release.py`, a timing-based key-release inference engine
for terminals that report only key-down activity.

The development shallowly embeds the program:

* `calibrate_keyboard_delays` models lines 72-94 (the calibration routine) as a
  function from the list of sampled timestamps (in seconds, as returned by
  `time.monotonic`) to an optional pair of delays; `none` models the uncaught
  exception raised when fewer than three samples are available.
* `py_round` models Python's `round` on exact rationals (round half to even).
* `resolve_select_timeout` models lines 29-32 (auto poll-timeout resolution).
* `LoopState`, `onEventObserved`, `tickKey`, `tickKeys`, `onTick`, `stepInput`
  and `run` model the event loop of `select_key_events` (lines 33-67): per-key
  state kept in `defaultdict`s, the event branch (lines 44-54), and the
  timeout branch (lines 55-67).  Hook invocations are recorded in a trace.
* `set_nonblocking`, `set_blocking` and `guarded_iteration` model the terminal
  session handling (lines 13-19 and 38-42/68-70): `tcgetattr` capture,
  `O_NONBLOCK` manipulation on the `fcntl` flag word, and the `try/finally`
  restoration that runs on every exit path.
* `HookTable`, `defaultdict_hook` and `run_hook_event` model the hook
  registries of lines 96-104 (`defaultdict(lambda: lambda: None)`), with a
  callback represented by the list of strings it prints.
-/

namespace KbdRelease

/-- Key codes: the raw character sequences read from stdin (line 44). -/
abbrev KeyCode := String

/-- CTRL-D (end of transmission), the termination sentinel of line 45. -/
def sentinel_char : KeyCode := "\x04"

/-- `os.O_NONBLOCK` on Linux (octal `0o4000`). -/
def O_NONBLOCK : Nat := 2048

/-- Lines 13-15: `fcntl(fd, F_SETFL, flags | os.O_NONBLOCK)` on the current
flag word. -/
def set_nonblocking (flags : Nat) : Nat := flags ||| O_NONBLOCK

/-- Lines 17-19: `fcntl(fd, F_SETFL, flags & ~os.O_NONBLOCK)`.  For the
nonnegative flag words Python works with, `flags & ~mask` is exactly
`Nat.ldiff flags mask` (keep the bits of `flags` that are not in `mask`). -/
def set_blocking (flags : Nat) : Nat := Nat.ldiff flags O_NONBLOCK

/-- The terminal-relevant state: the `termios` attribute blob queried by
`tcgetattr` (line 39) and the `fcntl` file-status flag word (lines 13-19),
both modelled as plain bit patterns. -/
structure TermState where
  mode : Nat
  flags : Nat
deriving DecidableEq

/-- How the guarded region of one loop iteration (lines 41-67) ends. -/
inductive IterExit
  | sentinelBreak
  | readError
  | modeError
  | otherExn
  | normal
deriving DecidableEq

/-- One iteration of the terminal-session bracket in `select_key_events`
(lines 38-42 and 68-70): line 39 captures `orig = tcgetattr(fd)`; line 40
calls `set_nonblocking`; inside the `try`, `tty.setcbreak` (and nothing else)
rewrites the terminal mode, to some value `bodyMode`; whatever way the body
ends (`ex`), the `finally` of lines 68-70 runs `tcsetattr(fd, TCSAFLUSH,
orig)` and then `set_blocking(fd)`. -/
def guarded_iteration (t0 : TermState) (bodyMode : Nat) (ex : IterExit) :
    TermState :=
  let orig := t0.mode
  let t1 : TermState := ⟨t0.mode, set_nonblocking t0.flags⟩
  let t2 : TermState :=
    match ex with
    | _ => ⟨bodyMode, t1.flags⟩
  ⟨orig, set_blocking t2.flags⟩

/-- Parameters of `select_key_events` (line 21): the key codes that have a
registered press hook (the `chars in up_hooks` test of line 49) and the three
timing parameters. -/
structure Params where
  up_keys : List KeyCode
  kbd_init_delay_ms : Int
  kbd_repeat_delay_ms : Int
  select_timeout_ms : Int

/-- Lines 29-32: resolve the auto (`-1`) select timeout.  Python's `//` is
floor division, hence `Int.fdiv`. -/
def resolve_select_timeout (kbd_repeat_delay_ms select_timeout_ms : Int) :
    Int :=
  if select_timeout_ms = -1 then
    let auto := Int.fdiv kbd_repeat_delay_ms 4
    if auto ≤ 0 then 1 else auto
  else select_timeout_ms

/-- The per-key tracker state of lines 33-35.  The three `defaultdict`s become
total functions carrying their default values (`False`, `True`, `0`), and
`seen_keys` records the keys of the `pressed` dict in insertion order (the
set iterated by line 56). -/
@[ext]
structure LoopState where
  pressed : KeyCode → Bool
  is_first_keypress : KeyCode → Bool
  current_delay_ms : KeyCode → Int
  seen_keys : List KeyCode

/-- The loop state before the first iteration: every key released, first
keypress pending, zero accumulated delay, no key observed yet. -/
def initState : LoopState :=
  ⟨fun _ => false, fun _ => true, fun _ => 0, []⟩

/-- Point update of one of the per-key maps (a dict item assignment). -/
def updFn {α : Type} (f : KeyCode → α) (k : KeyCode) (v : α) : KeyCode → α :=
  fun x => if x = k then v else f x

/-- A recorded hook invocation: `press c` for the call `up_hooks[chars]()` at
line 50, `release c` for the calls `down_hooks[chars]()` at lines 61 and 65. -/
inductive HookEv
  | press (c : KeyCode)
  | release (c : KeyCode)
deriving DecidableEq

/-- Lines 44-54, the branch taken when `select` reports input and the bytes
read are not the sentinel: reset the delay counter (line 47), record the key
in the `pressed` dict (the `pressed[chars]` access of line 48 inserts the
default), and either register a fresh press (lines 49-52, invoking the press
hook only when the key is registered) or mark a repeat (line 54). -/
def onEventObserved (P : Params) (s : LoopState) (c : KeyCode) :
    LoopState × List HookEv :=
  let delay1 := updFn s.current_delay_ms c 0
  let seen1 := if c ∈ s.seen_keys then s.seen_keys else s.seen_keys ++ [c]
  if s.pressed c = false then
    (⟨updFn s.pressed c true, updFn s.is_first_keypress c true, delay1, seen1⟩,
      if c ∈ P.up_keys then [HookEv.press c] else [])
  else
    (⟨s.pressed, updFn s.is_first_keypress c false, delay1, seen1⟩, [])

/-- Lines 57-67, the per-key body of the timeout branch: if the key is marked
pressed, add the poll timeout to its delay counter (line 58) and compare it
with the applicable threshold (line 60 for a first keypress, line 64
otherwise); past the threshold the release hook is invoked and the key is
marked released (lines 61-62 and 65-67; only the repeat branch resets
`is_first_keypress`). -/
def tickKey (P : Params) (s : LoopState) (c : KeyCode) :
    LoopState × List HookEv :=
  if s.pressed c then
    let d := s.current_delay_ms c + P.select_timeout_ms
    let s1 : LoopState := { s with current_delay_ms := updFn s.current_delay_ms c d }
    if s.is_first_keypress c then
      if d > P.kbd_init_delay_ms then
        ({ s1 with pressed := updFn s1.pressed c false }, [HookEv.release c])
      else (s1, [])
    else
      if d > P.kbd_repeat_delay_ms then
        ({ s1 with pressed := updFn s1.pressed c false,
                   is_first_keypress := updFn s1.is_first_keypress c true },
          [HookEv.release c])
      else (s1, [])
  else (s, [])

/-- Sequential iteration of `tickKey` over a list of keys (the
`for chars in pressed.keys()` loop of line 56). -/
def tickKeys (P : Params) (s : LoopState) : List KeyCode → LoopState × List HookEv
  | [] => (s, [])
  | c :: rest =>
    let p1 := tickKey P s c
    let p2 := tickKeys P p1.1 rest
    (p2.1, p1.2 ++ p2.2)

/-- Lines 55-67: on a `select` timeout, evaluate every key the `pressed` dict
has seen. -/
def onTick (P : Params) (s : LoopState) : LoopState × List HookEv :=
  tickKeys P s s.seen_keys

/-- What one iteration of the event loop observes: `select` either reports
input (the bytes read at line 44) or times out. -/
inductive Input
  | key (c : KeyCode)
  | timeout
deriving DecidableEq

/-- One iteration of the event loop (lines 43-67).  `none` in the first
component means the sentinel comparison of line 45 broke out of the loop. -/
def stepInput (P : Params) (s : LoopState) : Input → Option LoopState × List HookEv
  | Input.key c =>
    if c = sentinel_char then (none, [])
    else
      let p := onEventObserved P s c
      (some p.1, p.2)
  | Input.timeout =>
    let p := onTick P s
    (some p.1, p.2)

/-- Run the event loop over a list of iteration observations, accumulating the
trace of hook invocations; the loop stops at the sentinel (and ignores any
input after it, since the function has returned). -/
def run (P : Params) (s : LoopState) : List Input → LoopState × List HookEv
  | [] => (s, [])
  | i :: rest =>
    match stepInput P s i with
    | (none, tr) => (s, tr)
    | (some s1, tr) =>
      let p := run P s1 rest
      (p.1, tr ++ p.2)

/-- A loop state reachable from the initial state by iterations of the event
loop. -/
inductive Reachable (P : Params) : LoopState → Prop
  | init : Reachable P initState
  | step (s : LoopState) (i : Input) (s1 : LoopState) (tr : List HookEv) :
      Reachable P s → stepInput P s i = (some s1, tr) → Reachable P s1

/-- The single-key loop states arising when only key `c` has ever been
observed: `c` has pressed flag `p`, first-keypress flag `b` and accumulated
delay `d`; every other key still has its default state. -/
def oneKeyState (c : KeyCode) (p b : Bool) (d : Int) : LoopState :=
  ⟨updFn (fun _ => false) c p, updFn (fun _ => true) c b,
    updFn (fun _ => 0) c d, [c]⟩

/-- The input sequence of the sustained-repeat experiment: `n` cycles, each an
event for `X` followed by `m` poll timeouts. -/
def repeatCycles (X : KeyCode) (m : Nat) : Nat → List Input
  | 0 => []
  | n + 1 =>
    Input.key X :: (List.replicate m Input.timeout ++ repeatCycles X m n)

/-- Python's `round` on an exact rational: round to the nearest integer,
ties to the even integer (banker's rounding, the semantics of `round(float)`
used at lines 90 and 92). -/
def py_round (x : ℚ) : ℤ :=
  let f : ℤ := Int.floor x
  let r : ℚ := x - f
  if r < 1 / 2 then f
  else if 1 / 2 < r then f + 1
  else if f % 2 = 0 then f else f + 1

/-- Lines 72-94: the calibration routine, applied to the list of timestamps
(in seconds) it sampled at line 86 and to the `error` margin percentage.
Line 90 computes the initial delay from the first two samples; line 91 forms
the pairwise gaps `zip(chars[1:], chars[2:])` of the remaining samples; line
92 averages them.  With fewer than three samples the routine raises
(`IndexError` at line 90 or `ZeroDivisionError` at line 92) and produces no
result, modelled by `none`. -/
def calibrate_keyboard_delays (ts : List ℚ) (error : ℤ) : Option (ℤ × ℤ) :=
  match ts with
  | t0 :: t1 :: t2 :: rest =>
    let kbd_init_delay_ms := py_round ((t1 - t0) * 1000 * (1 + (error : ℚ) / 100))
    let deltas := List.zipWith (fun a b => b - a) (t1 :: t2 :: rest) (t2 :: rest)
    let kbd_repeat_delay_ms :=
      py_round (deltas.sum / (deltas.length : ℚ) * 1000 * (1 + (error : ℚ) / 100))
    some (kbd_init_delay_ms, kbd_repeat_delay_ms)
  | _ => none

/-- A hook registry (lines 96-104): an association list from key codes to
callbacks, a callback being modelled by the list of strings it prints. -/
abbrev HookTable := List (KeyCode × List String)

/-- The default callback manufactured by `defaultdict(lambda: lambda: None)`
(lines 96-97): it does nothing, so it prints nothing. -/
def noop_hook : List String := []

/-- Association-list lookup, `m[c]` when `c` is a key of `m`. -/
def lookup_hook (m : HookTable) (c : KeyCode) : Option (List String) :=
  (m.find? (fun p => p.1 == c)).map Prod.snd

/-- `defaultdict` item access on a hook table (lines 96-97): a registered
callback, or the manufactured no-op for an unregistered key. -/
def defaultdict_hook (m : HookTable) (c : KeyCode) : List String :=
  (lookup_hook m c).getD noop_hook

/-- Interpret a recorded hook invocation against concrete registries: the
press call of line 50 reads `up_hooks`, the release calls of lines 61 and 65
read `down_hooks`. -/
def run_hook_event (ups downs : HookTable) : HookEv → List String
  | HookEv.press c => defaultdict_hook ups c
  | HookEv.release c => defaultdict_hook downs c

/-- The key codes registered in a hook table. -/
def hook_keys (m : HookTable) : List KeyCode := m.map Prod.fst

/-- The demo press registry of lines 100-104. -/
def demo_up_hooks : HookTable :=
  [("[A", ["Up pressed"]), ("[B", ["Down pressed"])]

/-- The demo release registry of lines 100-104. -/
def demo_down_hooks : HookTable :=
  [("[A", ["Up released"]), ("[B", ["Down released"])]

/-- A concrete parameter set: the demo press keys with the calibration values
`kbd_init_delay_ms = 300`, `kbd_repeat_delay_ms = 40` and a 10 ms poll
timeout. -/
def demoParams : Params :=
  ⟨hook_keys demo_up_hooks, 300, 40, 10⟩

/-- The structural invariant of the tracker state: the key list of the
`pressed` dict has no duplicates, every key marked pressed has been inserted
into that dict, and every key not marked pressed still (or again) has its
first-keypress flag set. -/
def StateInv (s : LoopState) : Prop :=
  s.seen_keys.Nodup ∧
  (∀ c, s.pressed c = true → c ∈ s.seen_keys) ∧
  (∀ c, s.pressed c = false → s.is_first_keypress c = true)

/-! ## Basic lemmas about the update maps and the session bracket -/

theorem updFn_self {α : Type} (f : KeyCode → α) (k : KeyCode) (v : α) :
    updFn f k v k = v := by
  simp [updFn]

theorem updFn_ne {α : Type} (f : KeyCode → α) (k : KeyCode) (v : α) (x : KeyCode)
    (h : x ≠ k) : updFn f k v x = f x := by
  simp [updFn, h]

theorem updFn_updFn {α : Type} (f : KeyCode → α) (k : KeyCode) (v w : α) :
    updFn (updFn f k v) k w = updFn f k w := by
  funext x
  by_cases h : x = k <;> simp [updFn, h]

theorem set_blocking_set_nonblocking (flags : Nat) :
    set_blocking (set_nonblocking flags) = set_blocking flags := by
  apply Nat.eq_of_testBit_eq
  intro i
  simp only [set_blocking, set_nonblocking, O_NONBLOCK, Nat.testBit_ldiff,
    Nat.testBit_lor]
  rcases Bool.eq_false_or_eq_true ((2048 : Nat).testBit i) with h | h <;> simp [h]

theorem set_blocking_of_not_nonblock (flags : Nat) (h : flags.testBit 11 = false) :
    set_blocking flags = flags := by
  apply Nat.eq_of_testBit_eq
  intro i
  rw [set_blocking, O_NONBLOCK, Nat.testBit_ldiff]
  rcases eq_or_ne i 11 with rfl | hi
  · simp [h]
  · have h2 : (2048 : Nat) = 2 ^ 11 := by norm_num
    rw [h2, Nat.testBit_two_pow]
    simp [Ne.symm hi]

theorem ldiff_two_pow_eleven_2048 : Nat.ldiff 2048 2048 = 0 := by
  apply Nat.eq_of_testBit_eq
  intro i
  simp [Nat.testBit_ldiff]

/-! ## C5: session restoration -/

/-- C5 counterexample: when stdin starts out in non-blocking mode (the
`O_NONBLOCK` bit of the flag word already set, here `flags = 2048`), the exit
path of the guarded region clears that bit, so the descriptor's flags are not
restored to their pre-acquisition value. -/
theorem session_restore_counterexample :
    guarded_iteration ⟨0, 2048⟩ 0 IterExit.normal ≠ (⟨0, 2048⟩ : TermState) := by
  intro h
  have hflags : (guarded_iteration ⟨0, 2048⟩ 0 IterExit.normal).flags = 2048 := by
    rw [h]
  have hzero : (guarded_iteration ⟨0, 2048⟩ 0 IterExit.normal).flags = 0 := by
    show set_blocking (set_nonblocking 2048) = 0
    rw [set_blocking_set_nonblocking]
    exact ldiff_two_pow_eleven_2048
  rw [hzero] at hflags
  exact absurd hflags (by decide)

/-- C5 amended: on every exit path of the guarded region (normal sentinel
exit, read failure, mode-switch failure inside the `try`, or any other
exception) and for every initial terminal state, the terminal mode is
restored bit-identically, while the descriptor flag word is restored except
that the `O_NONBLOCK` bit is unconditionally cleared; in particular the
restoration is bit-identical whenever the descriptor was initially in
blocking mode. -/
theorem session_restore_amended (t0 : TermState) (bodyMode : Nat)
    (ex : IterExit) :
    (guarded_iteration t0 bodyMode ex).mode = t0.mode ∧
    (guarded_iteration t0 bodyMode ex).flags = set_blocking t0.flags ∧
    (t0.flags.testBit 11 = false → guarded_iteration t0 bodyMode ex = t0) := by
  refine ⟨rfl, ?_, ?_⟩
  · show set_blocking (set_nonblocking t0.flags) = set_blocking t0.flags
    exact set_blocking_set_nonblocking t0.flags
  · intro h
    have h1 : set_blocking (set_nonblocking t0.flags) = t0.flags := by
      rw [set_blocking_set_nonblocking, set_blocking_of_not_nonblock _ h]
    cases ex <;>
      · show (⟨t0.mode, set_blocking (set_nonblocking t0.flags)⟩ : TermState) = t0
        rw [h1]

/-- Witness for the amended C5 at a concrete blocking-mode initial state. -/
theorem session_restore_amended_witness :
    (guarded_iteration ⟨5, 2⟩ 99 IterExit.readError).mode = 5 ∧
    guarded_iteration ⟨5, 2⟩ 99 IterExit.readError = (⟨5, 2⟩ : TermState) := by
  have h := session_restore_amended ⟨5, 2⟩ 99 IterExit.readError
  exact ⟨h.1, h.2.2 (by decide)⟩

/-! ## C8: auto poll timeout -/

/-- C8: when `select_timeout_ms` is left at the auto value `-1` and the repeat
interval is positive, the loop derives `max(1, kbd_repeat_delay_ms / 4)`,
which is always strictly positive. -/
theorem auto_poll_timeout (r : Int) (hr : 0 < r) :
    resolve_select_timeout r (-1) = max 1 (r / 4) ∧
    0 < resolve_select_timeout r (-1) := by
  have hmain : resolve_select_timeout r (-1) = max 1 (r / 4) := by
    have hfd : Int.fdiv r 4 = r / 4 := Int.fdiv_eq_ediv _ (by norm_num)
    simp only [resolve_select_timeout, hfd, max_def, if_pos]
    split <;> split <;> omega
  refine ⟨hmain, ?_⟩
  rw [hmain]
  exact lt_of_lt_of_le one_pos (le_max_left 1 (r / 4))

/-- Witness for C8 at `kbd_repeat_delay_ms = 40`: the derived timeout is
`10`. -/
theorem auto_poll_timeout_witness :
    resolve_select_timeout 40 (-1) = max 1 (40 / 4) ∧
    0 < resolve_select_timeout 40 (-1) :=
  auto_poll_timeout 40 (by decide)

/-! ## C7: calibration with too few samples -/

/-- C7: with fewer than three samples the calibration routine fails (the
source raises before reaching its `return`) and produces no calibration
result. -/
theorem calibrate_insufficient_samples (ts : List ℚ) (error : ℤ)
    (h : ts.length < 3) :
    calibrate_keyboard_delays ts error = none := by
  match ts with
  | [] => rfl
  | [t0] => rfl
  | [t0, t1] => rfl
  | t0 :: t1 :: t2 :: rest => simp at h; omega

/-- Witness for C7: a single sample yields no result. -/
theorem calibrate_insufficient_samples_witness :
    calibrate_keyboard_delays [0] 4 = none :=
  calibrate_insufficient_samples [0] 4 (by decide)

/-! ## C4: the termination sentinel -/

/-- C4: when the bytes read in an iteration equal the sentinel (CTRL-D), the
event loop returns immediately: no press or release hook is invoked in that
iteration or any later one, whatever keys are currently marked pressed, and
no key's tracked state changes. -/
theorem sentinel_immediate_return (P : Params) (s : LoopState)
    (rest : List Input) :
    run P s (Input.key sentinel_char :: rest) = (s, []) := by
  rw [run, stepInput]
  simp

/-! ## C6: unregistered hooks are no-ops -/

/-- C6: for a key code with no registered callback, the `defaultdict` lookups
of lines 96-97 yield the manufactured no-op callback, interpreting either
hook invocation for that key prints nothing, and the event-loop iteration
that observes such a key completes normally (it does not break or fail) while
invoking no press hook. -/
theorem unregistered_hooks_noop (ups downs : HookTable) (c : KeyCode)
    (P : Params) (s : LoopState)
    (hP : P.up_keys = hook_keys ups)
    (hu : lookup_hook ups c = none) (hd : lookup_hook downs c = none)
    (hc : c ≠ sentinel_char) :
    defaultdict_hook ups c = noop_hook ∧
    defaultdict_hook downs c = noop_hook ∧
    run_hook_event ups downs (HookEv.press c) = [] ∧
    run_hook_event ups downs (HookEv.release c) = [] ∧
    (stepInput P s (Input.key c)).1 = some (onEventObserved P s c).1 ∧
    (stepInput P s (Input.key c)).2 = [] := by
  have h1 : defaultdict_hook ups c = noop_hook := by
    rw [defaultdict_hook, hu, Option.getD_none]
  have h2 : defaultdict_hook downs c = noop_hook := by
    rw [defaultdict_hook, hd, Option.getD_none]
  have hmem : c ∉ P.up_keys := by
    rw [hP, hook_keys]
    intro hin
    obtain ⟨p, hp, rfl⟩ := List.mem_map.mp hin
    have := List.find?_eq_none.mp (by
      have : (ups.find? (fun q => q.1 == p.1)) = none := by
        by_contra hne
        rw [lookup_hook] at hu
        rcases Option.ne_none_iff_exists.mp hne with ⟨q, hq⟩
        rw [← hq] at hu
        simp at hu
      exact this) p hp
    simp at this
  refine ⟨h1, h2, ?_, ?_, ?_, ?_⟩
  · rw [run_hook_event, h1, noop_hook]
  · rw [run_hook_event, h2, noop_hook]
  · rw [stepInput, if_neg hc]
  · rw [stepInput, if_neg hc]
    rw [onEventObserved]
    by_cases hp : s.pressed c = false <;> simp [hp, hmem]

/-- Witness for C6: the key `"x"` is registered in neither demo registry;
both lookups produce the no-op, the interpreted invocations print nothing,
and the iteration observing `"x"` completes normally without invoking a
hook. -/
theorem unregistered_hooks_noop_witness :
    defaultdict_hook demo_up_hooks "x" = noop_hook ∧
    defaultdict_hook demo_down_hooks "x" = noop_hook ∧
    run_hook_event demo_up_hooks demo_down_hooks (HookEv.press "x") = [] ∧
    run_hook_event demo_up_hooks demo_down_hooks (HookEv.release "x") = [] ∧
    (stepInput demoParams initState (Input.key "x")).1 =
      some (onEventObserved demoParams initState "x").1 ∧
    (stepInput demoParams initState (Input.key "x")).2 = [] :=
  unregistered_hooks_noop demo_up_hooks demo_down_hooks "x" demoParams
    initState rfl (by decide) (by decide) (by decide)

/-! ## Per-key lemmas about the timeout branch -/

theorem tickKey_seen (P : Params) (s : LoopState) (c : KeyCode) :
    (tickKey P s c).1.seen_keys = s.seen_keys := by
  simp only [tickKey]
  split_ifs <;> rfl

theorem tickKey_ne (P : Params) (s : LoopState) (c x : KeyCode) (h : x ≠ c) :
    (tickKey P s c).1.pressed x = s.pressed x ∧
    (tickKey P s c).1.is_first_keypress x = s.is_first_keypress x ∧
    (tickKey P s c).1.current_delay_ms x = s.current_delay_ms x := by
  simp only [tickKey]
  split_ifs <;> simp [updFn_ne _ _ _ _ h]

theorem tickKey_not_pressed (P : Params) (s : LoopState) (c : KeyCode)
    (h : s.pressed c = false) : tickKey P s c = (s, []) := by
  simp only [tickKey]
  rw [if_neg]
  simp [h]

theorem tickKey_pressed_delay (P : Params) (s : LoopState) (c : KeyCode)
    (h : s.pressed c = true) :
    (tickKey P s c).1.current_delay_ms c
      = s.current_delay_ms c + P.select_timeout_ms := by
  simp only [tickKey]
  rw [if_pos h]
  split_ifs <;> simp [updFn_self]

theorem tickKeys_seen (P : Params) (l : List KeyCode) :
    ∀ s : LoopState, (tickKeys P s l).1.seen_keys = s.seen_keys := by
  induction l with
  | nil => intro s; rfl
  | cons c rest ih =>
    intro s
    simp only [tickKeys]
    exact (ih (tickKey P s c).1).trans (tickKey_seen P s c)

theorem tickKeys_not_pressed (P : Params) (l : List KeyCode) :
    ∀ s : LoopState, ∀ c : KeyCode, s.pressed c = false →
      (tickKeys P s l).1.pressed c = false ∧
      (tickKeys P s l).1.is_first_keypress c = s.is_first_keypress c ∧
      (tickKeys P s l).1.current_delay_ms c = s.current_delay_ms c := by
  induction l with
  | nil => intro s c h; exact ⟨h, rfl, rfl⟩
  | cons k rest ih =>
    intro s c h
    simp only [tickKeys]
    by_cases hk : c = k
    · subst hk
      rw [tickKey_not_pressed P s c h]
      exact ih s c h
    · obtain ⟨h1, h2, h3⟩ := tickKey_ne P s k c hk
      obtain ⟨g1, g2, g3⟩ := ih (tickKey P s k).1 c (h1.trans h)
      exact ⟨g1, g2.trans h2, g3.trans h3⟩

theorem tickKeys_not_mem (P : Params) (l : List KeyCode) :
    ∀ s : LoopState, ∀ c : KeyCode, c ∉ l →
      (tickKeys P s l).1.pressed c = s.pressed c ∧
      (tickKeys P s l).1.is_first_keypress c = s.is_first_keypress c ∧
      (tickKeys P s l).1.current_delay_ms c = s.current_delay_ms c := by
  induction l with
  | nil => intro s c _; exact ⟨rfl, rfl, rfl⟩
  | cons k rest ih =>
    intro s c h
    have hk : c ≠ k := fun e => h (e ▸ List.mem_cons_self k rest)
    have hrest : c ∉ rest := fun e => h (List.mem_cons_of_mem k e)
    simp only [tickKeys]
    obtain ⟨h1, h2, h3⟩ := tickKey_ne P s k c hk
    obtain ⟨g1, g2, g3⟩ := ih (tickKey P s k).1 c hrest
    exact ⟨g1.trans h1, g2.trans h2, g3.trans h3⟩

theorem tickKeys_pressed_delay (P : Params) (l : List KeyCode) :
    ∀ s : LoopState, ∀ c : KeyCode, l.Nodup → c ∈ l → s.pressed c = true →
      (tickKeys P s l).1.current_delay_ms c
        = s.current_delay_ms c + P.select_timeout_ms := by
  induction l with
  | nil => intro s c _ h; simp at h
  | cons k rest ih =>
    intro s c hnd hmem hp
    simp only [tickKeys]
    rcases List.mem_cons.mp hmem with rfl | hmem2
    · have hrest : c ∉ rest := (List.nodup_cons.mp hnd).1
      rw [(tickKeys_not_mem P rest (tickKey P s c).1 c hrest).2.2,
        tickKey_pressed_delay P s c hp]
    · have hk : c ≠ k := by
        rintro rfl
        exact (List.nodup_cons.mp hnd).1 hmem2
      obtain ⟨p1, _, p3⟩ := tickKey_ne P s k c hk
      rw [ih (tickKey P s k).1 c (List.nodup_cons.mp hnd).2 hmem2
        (p1.trans hp), p3]

/-! ## Preservation of the structural invariant -/

theorem stateInv_init : StateInv initState := by
  refine ⟨List.nodup_nil, ?_, ?_⟩
  · intro c h
    exact absurd h (by simp [initState])
  · intro c _
    rfl

theorem stateInv_onEventObserved (P : Params) (s : LoopState) (c : KeyCode)
    (h : StateInv s) : StateInv (onEventObserved P s c).1 := by
  obtain ⟨hnd, hmem, hfirst⟩ := h
  have hseen : ∀ x, x ∈ s.seen_keys →
      x ∈ (if c ∈ s.seen_keys then s.seen_keys else s.seen_keys ++ [c]) := by
    intro x hx
    by_cases hc : c ∈ s.seen_keys <;> simp [hc, hx]
  have hcseen : c ∈ (if c ∈ s.seen_keys then s.seen_keys else s.seen_keys ++ [c]) := by
    by_cases hc : c ∈ s.seen_keys <;> simp [hc]
  have hndseen :
      (if c ∈ s.seen_keys then s.seen_keys else s.seen_keys ++ [c]).Nodup := by
    by_cases hc : c ∈ s.seen_keys
    · simpa [hc] using hnd
    · simp only [if_neg hc]
      simp [List.nodup_append, hnd, hc]
  by_cases hp : s.pressed c = false
  · simp only [onEventObserved, if_pos hp]
    refine ⟨hndseen, ?_, ?_⟩
    · intro x hx
      simp only at hx ⊢
      by_cases hxc : x = c
      · subst hxc
        exact hcseen
      · rw [updFn_ne _ _ _ _ hxc] at hx
        exact hseen x (hmem x hx)
    · intro x hx
      simp only at hx ⊢
      by_cases hxc : x = c
      · subst hxc
        rw [updFn_self] at hx
        exact absurd hx (by simp)
      · rw [updFn_ne _ _ _ _ hxc] at hx
        rw [updFn_ne _ _ _ _ hxc]
        exact hfirst x hx
  · have hp2 : s.pressed c = true := by
      cases hb : s.pressed c
      · exact absurd hb hp
      · rfl
    simp only [onEventObserved, if_neg hp]
    refine ⟨hndseen, ?_, ?_⟩
    · intro x hx
      simp only at hx ⊢
      exact hseen x (hmem x hx)
    · intro x hx
      simp only at hx ⊢
      by_cases hxc : x = c
      · subst hxc
        exact absurd hx (by simp [hp2])
      · rw [updFn_ne _ _ _ _ hxc]
        exact hfirst x hx

theorem stateInv_tickKey (P : Params) (s : LoopState) (c : KeyCode)
    (h : StateInv s) : StateInv (tickKey P s c).1 := by
  obtain ⟨hnd, hmem, hfirst⟩ := h
  by_cases hp : s.pressed c = true
  case neg =>
    have hp2 : s.pressed c = false := by
      cases hb : s.pressed c
      · rfl
      · exact absurd hb hp
    rw [tickKey_not_pressed P s c hp2]
    exact ⟨hnd, hmem, hfirst⟩
  case pos =>
    have hseen := tickKey_seen P s c
    refine ⟨hseen ▸ hnd, ?_, ?_⟩
    · intro x hx
      rw [hseen]
      by_cases hxc : x = c
      · subst hxc
        exact hmem x hp
      · rw [(tickKey_ne P s c x hxc).1] at hx
        exact hmem x hx
    · intro x hx
      by_cases hxc : x = c
      · subst hxc
        simp only [tickKey, if_pos hp] at hx ⊢
        by_cases hf : s.is_first_keypress x = true
        · rw [if_pos hf] at hx ⊢
          split_ifs at hx ⊢ <;> simp_all [updFn_self]
        · have hf2 : s.is_first_keypress x = false := by
            cases hb : s.is_first_keypress x
            · rfl
            · exact absurd hb hf
          rw [if_neg hf] at hx ⊢
          split_ifs at hx ⊢ <;> simp_all [updFn_self]
      · obtain ⟨p1, p2, _⟩ := tickKey_ne P s c x hxc
        rw [p1] at hx
        rw [p2]
        exact hfirst x hx

theorem stateInv_tickKeys (P : Params) (l : List KeyCode) :
    ∀ s : LoopState, StateInv s → StateInv (tickKeys P s l).1 := by
  induction l with
  | nil => intro s h; exact h
  | cons k rest ih =>
    intro s h
    simp only [tickKeys]
    exact ih (tickKey P s k).1 (stateInv_tickKey P s k h)

theorem stateInv_step (P : Params) (s : LoopState) (i : Input) (s1 : LoopState)
    (tr : List HookEv) (h : stepInput P s i = (some s1, tr)) (hs : StateInv s) :
    StateInv s1 := by
  cases i with
  | key c =>
    by_cases hc : c = sentinel_char
    · rw [stepInput, if_pos hc] at h
      exact absurd (congrArg Prod.fst h) (by simp)
    · rw [stepInput, if_neg hc] at h
      have h1 : some (onEventObserved P s c).1 = some s1 := congrArg Prod.fst h
      obtain rfl : (onEventObserved P s c).1 = s1 := Option.some.inj h1
      exact stateInv_onEventObserved P s c hs
  | timeout =>
    rw [stepInput] at h
    have h1 : some (onTick P s).1 = some s1 := congrArg Prod.fst h
    obtain rfl : (onTick P s).1 = s1 := Option.some.inj h1
    exact stateInv_tickKeys P s.seen_keys s hs

theorem reachable_inv (P : Params) (s : LoopState) (h : Reachable P s) :
    StateInv s := by
  induction h with
  | init => exact stateInv_init
  | step s0 i s1 tr _ hstep ih => exact stateInv_step P s0 i s1 tr hstep ih

/-! ## C10: released keys keep their first-keypress flag -/

/-- C10: in every loop state reachable from the initial state by observed
events and ticks, a key whose pressed flag is false has its first-keypress
flag set: the initial-delay release path leaves the flag true (it was the
branch condition) and the repeat release path resets it at line 67, so the
next press of a released key is always evaluated against
`kbd_init_delay_ms`. -/
theorem released_implies_first_keypress (P : Params) (s : LoopState)
    (h : Reachable P s) (c : KeyCode) (hc : s.pressed c = false) :
    s.is_first_keypress c = true :=
  (reachable_inv P s h).2.2 c hc

/-- Witness for C10 at the initial state. -/
theorem released_implies_first_keypress_witness :
    initState.is_first_keypress "a" = true :=
  released_implies_first_keypress demoParams initState Reachable.init "a" rfl

/-! ## C9: delay accumulation only while pressed -/

/-- C9: in any reachable state, a tick adds `select_timeout_ms` exactly to
the delay counters of keys whose pressed flag is true, leaves the whole
tracked state of every unpressed key unchanged, and an observed non-sentinel
event resets that key's counter to 0 (line 47). -/
theorem tick_accumulates_only_pressed (P : Params) (s : LoopState)
    (h : Reachable P s) (c : KeyCode) :
    (s.pressed c = false →
      (onTick P s).1.pressed c = false ∧
      (onTick P s).1.is_first_keypress c = s.is_first_keypress c ∧
      (onTick P s).1.current_delay_ms c = s.current_delay_ms c) ∧
    (s.pressed c = true →
      (onTick P s).1.current_delay_ms c
        = s.current_delay_ms c + P.select_timeout_ms) ∧
    (c ≠ sentinel_char →
      (onEventObserved P s c).1.current_delay_ms c = 0) := by
  obtain ⟨hnd, hmem, _⟩ := reachable_inv P s h
  refine ⟨?_, ?_, ?_⟩
  · intro hp
    exact tickKeys_not_pressed P s.seen_keys s c hp
  · intro hp
    exact tickKeys_pressed_delay P s.seen_keys s c hnd (hmem c hp) hp
  · intro _
    by_cases hp : s.pressed c = false <;>
      simp [onEventObserved, hp, updFn_self]

/-- Witness for C9: the event branch resets the counter of the observed key
at the initial state. -/
theorem tick_accumulates_only_pressed_witness :
    (onEventObserved demoParams initState "a").1.current_delay_ms "a" = 0 :=
  (tick_accumulates_only_pressed demoParams initState Reachable.init "a").2.2
    (by decide)

/-! ## Single-key run lemmas -/

theorem loopState_eq (s t : LoopState)
    (h1 : ∀ x, s.pressed x = t.pressed x)
    (h2 : ∀ x, s.is_first_keypress x = t.is_first_keypress x)
    (h3 : ∀ x, s.current_delay_ms x = t.current_delay_ms x)
    (h4 : s.seen_keys = t.seen_keys) : s = t := by
  obtain ⟨p1, f1, d1, k1⟩ := s
  obtain ⟨p2, f2, d2, k2⟩ := t
  congr 1
  · funext x
    exact h1 x
  · funext x
    exact h2 x
  · funext x
    exact h3 x

theorem stepInput_timeout (P : Params) (s : LoopState) :
    stepInput P s Input.timeout = (some (onTick P s).1, (onTick P s).2) := rfl

theorem run_cons_some (P : Params) (s s1 : LoopState) (i : Input)
    (tr : List HookEv) (rest : List Input)
    (h : stepInput P s i = (some s1, tr)) :
    run P s (i :: rest) = ((run P s1 rest).1, tr ++ (run P s1 rest).2) := by
  simp only [run, h]

theorem run_replicate_timeout_append (P : Params) (k : Nat) :
    ∀ (s : LoopState) (l : List Input),
    run P s (List.replicate k Input.timeout ++ l)
      = ((run P (run P s (List.replicate k Input.timeout)).1 l).1,
         (run P s (List.replicate k Input.timeout)).2
           ++ (run P (run P s (List.replicate k Input.timeout)).1 l).2) := by
  induction k with
  | zero =>
    intro s l
    simp [run]
  | succ n ih =>
    intro s l
    have e1 := run_cons_some P s (onTick P s).1 Input.timeout (onTick P s).2
      (List.replicate n Input.timeout ++ l) rfl
    have e2 := run_cons_some P s (onTick P s).1 Input.timeout (onTick P s).2
      (List.replicate n Input.timeout) rfl
    rw [List.replicate_succ, List.cons_append, e1, ih (onTick P s).1 l, e2]
    simp [List.append_assoc]

theorem onEventObserved_init (P : Params) (c : KeyCode) :
    onEventObserved P initState c
      = (oneKeyState c true true 0,
         if c ∈ P.up_keys then [HookEv.press c] else []) := by
  rw [onEventObserved]
  rw [if_pos (show initState.pressed c = false from rfl)]
  refine Prod.ext ?_ rfl
  apply loopState_eq <;> simp [initState, oneKeyState]

theorem onEventObserved_oneKey_pressed (P : Params) (c : KeyCode) (b : Bool)
    (d : Int) :
    onEventObserved P (oneKeyState c true b d) c
      = (oneKeyState c true false 0, []) := by
  rw [onEventObserved]
  have hp : (oneKeyState c true b d).pressed c = true := by
    simp [oneKeyState, updFn]
  rw [if_neg (by simp [hp])]
  refine Prod.ext ?_ rfl
  apply loopState_eq
  · intro x
    rfl
  · intro x
    by_cases hx : x = c <;> simp [oneKeyState, updFn, hx]
  · intro x
    by_cases hx : x = c <;> simp [oneKeyState, updFn, hx]
  · simp [oneKeyState]

theorem onTick_oneKey_dead (P : Params) (c : KeyCode) (b : Bool) (d : Int) :
    onTick P (oneKeyState c false b d) = (oneKeyState c false b d, []) := by
  have hp : (oneKeyState c false b d).pressed c = false := by
    simp [oneKeyState, updFn]
  rw [onTick]
  show tickKeys P (oneKeyState c false b d) [c] = _
  simp [tickKeys, tickKey_not_pressed P _ c hp]

theorem onTick_oneKey_live_first (P : Params) (c : KeyCode) (d : Int) :
    onTick P (oneKeyState c true true d)
      = if d + P.select_timeout_ms > P.kbd_init_delay_ms
        then (oneKeyState c false true (d + P.select_timeout_ms),
              [HookEv.release c])
        else (oneKeyState c true true (d + P.select_timeout_ms), []) := by
  have hp : (oneKeyState c true true d).pressed c = true := by
    simp [oneKeyState, updFn]
  have hf : (oneKeyState c true true d).is_first_keypress c = true := by
    simp [oneKeyState, updFn]
  have hd : (oneKeyState c true true d).current_delay_ms c = d := by
    simp [oneKeyState, updFn]
  rw [onTick]
  show tickKeys P (oneKeyState c true true d) [c] = _
  simp only [tickKeys, tickKey, hp, hf, hd, if_true]
  split_ifs with hfire
  · refine Prod.ext ?_ (by simp)
    apply loopState_eq
    · intro x
      by_cases hx : x = c <;> simp [oneKeyState, updFn, hx]
    · intro x
      by_cases hx : x = c <;> simp [oneKeyState, updFn, hx]
    · intro x
      by_cases hx : x = c <;> simp [oneKeyState, updFn, hx]
    · simp [oneKeyState]
  · refine Prod.ext ?_ (by simp)
    apply loopState_eq
    · intro x
      by_cases hx : x = c <;> simp [oneKeyState, updFn, hx]
    · intro x
      by_cases hx : x = c <;> simp [oneKeyState, updFn, hx]
    · intro x
      by_cases hx : x = c <;> simp [oneKeyState, updFn, hx]
    · simp [oneKeyState]

theorem onTick_oneKey_live_repeat (P : Params) (c : KeyCode) (d : Int) :
    onTick P (oneKeyState c true false d)
      = if d + P.select_timeout_ms > P.kbd_repeat_delay_ms
        then (oneKeyState c false true (d + P.select_timeout_ms),
              [HookEv.release c])
        else (oneKeyState c true false (d + P.select_timeout_ms), []) := by
  have hp : (oneKeyState c true false d).pressed c = true := by
    simp [oneKeyState, updFn]
  have hf : (oneKeyState c true false d).is_first_keypress c = false := by
    simp [oneKeyState, updFn]
  have hd : (oneKeyState c true false d).current_delay_ms c = d := by
    simp [oneKeyState, updFn]
  rw [onTick]
  show tickKeys P (oneKeyState c true false d) [c] = _
  simp only [tickKeys, tickKey, hp, hf, hd, if_true, Bool.false_eq_true,
    if_false]
  split_ifs with hfire
  · refine Prod.ext ?_ (by simp)
    apply loopState_eq
    · intro x
      by_cases hx : x = c <;> simp [oneKeyState, updFn, hx]
    · intro x
      by_cases hx : x = c <;> simp [oneKeyState, updFn, hx]
    · intro x
      by_cases hx : x = c <;> simp [oneKeyState, updFn, hx]
    · simp [oneKeyState]
  · refine Prod.ext ?_ (by simp)
    apply loopState_eq
    · intro x
      by_cases hx : x = c <;> simp [oneKeyState, updFn, hx]
    · intro x
      by_cases hx : x = c <;> simp [oneKeyState, updFn, hx]
    · intro x
      by_cases hx : x = c <;> simp [oneKeyState, updFn, hx]
    · simp [oneKeyState]

theorem run_timeouts_dead (P : Params) (c : KeyCode) (b : Bool) (d : Int)
    (k : Nat) :
    run P (oneKeyState c false b d) (List.replicate k Input.timeout)
      = (oneKeyState c false b d, []) := by
  induction k with
  | zero => rfl
  | succ n ih =>
    have hstep : stepInput P (oneKeyState c false b d) Input.timeout
        = (some (oneKeyState c false b d), []) := by
      rw [stepInput_timeout, onTick_oneKey_dead]
    rw [List.replicate_succ, run_cons_some P _ _ _ _ _ hstep, ih]
    rfl

theorem run_timeouts_live_first (P : Params) (c : KeyCode) (k : Nat) :
    ∀ d : Int,
    0 < P.select_timeout_ms → 0 ≤ d → d ≤ P.kbd_init_delay_ms →
    P.kbd_init_delay_ms < d + (k : ℤ) * P.select_timeout_ms →
    ∃ dfin : Int,
      run P (oneKeyState c true true d) (List.replicate k Input.timeout)
        = (oneKeyState c false true dfin, [HookEv.release c]) := by
  induction k with
  | zero =>
    intro d _ _ hle hgt
    exfalso
    push_cast at hgt
    linarith
  | succ n ih =>
    intro d ht hd hle hgt
    by_cases hfire : d + P.select_timeout_ms > P.kbd_init_delay_ms
    · have hstep : stepInput P (oneKeyState c true true d) Input.timeout
          = (some (oneKeyState c false true (d + P.select_timeout_ms)),
             [HookEv.release c]) := by
        rw [stepInput_timeout, onTick_oneKey_live_first, if_pos hfire]
      rw [List.replicate_succ, run_cons_some P _ _ _ _ _ hstep,
        run_timeouts_dead]
      exact ⟨d + P.select_timeout_ms, by simp⟩
    · have hstep : stepInput P (oneKeyState c true true d) Input.timeout
          = (some (oneKeyState c true true (d + P.select_timeout_ms)), []) := by
        rw [stepInput_timeout, onTick_oneKey_live_first, if_neg hfire]
      have hgt2 : P.kbd_init_delay_ms
          < (d + P.select_timeout_ms) + (n : ℤ) * P.select_timeout_ms := by
        push_cast at hgt
        linarith
      obtain ⟨dfin, hrun⟩ := ih (d + P.select_timeout_ms) ht
        (by linarith) (by linarith) hgt2
      rw [List.replicate_succ, run_cons_some P _ _ _ _ _ hstep, hrun]
      exact ⟨dfin, by simp⟩

theorem run_timeouts_no_fire (P : Params) (c : KeyCode) (b : Bool) (k : Nat) :
    ∀ d : Int,
    0 < P.select_timeout_ms →
    d + (k : ℤ) * P.select_timeout_ms
      ≤ (if b then P.kbd_init_delay_ms else P.kbd_repeat_delay_ms) →
    run P (oneKeyState c true b d) (List.replicate k Input.timeout)
      = (oneKeyState c true b (d + (k : ℤ) * P.select_timeout_ms), []) := by
  induction k with
  | zero =>
    intro d _ _
    simp [run]
  | succ n ih =>
    intro d ht hk
    have hnt : 0 ≤ (n : ℤ) * P.select_timeout_ms := by positivity
    have hle : d + P.select_timeout_ms
        ≤ (if b then P.kbd_init_delay_ms else P.kbd_repeat_delay_ms) := by
      push_cast at hk
      nlinarith
    have hk2 : (d + P.select_timeout_ms) + (n : ℤ) * P.select_timeout_ms
        ≤ (if b then P.kbd_init_delay_ms else P.kbd_repeat_delay_ms) := by
      push_cast at hk
      nlinarith
    have harith : (d + P.select_timeout_ms) + (n : ℤ) * P.select_timeout_ms
        = d + ((n : ℕ) + 1 : ℤ) * P.select_timeout_ms := by ring
    cases b with
    | true =>
      have hfire : ¬ d + P.select_timeout_ms > P.kbd_init_delay_ms := by
        rw [if_pos rfl] at hle
        linarith
      have hstep : stepInput P (oneKeyState c true true d) Input.timeout
          = (some (oneKeyState c true true (d + P.select_timeout_ms)), []) := by
        rw [stepInput_timeout, onTick_oneKey_live_first, if_neg hfire]
      rw [List.replicate_succ, run_cons_some P _ _ _ _ _ hstep,
        ih (d + P.select_timeout_ms) ht hk2]
      rw [harith]
      push_cast
      simp
    | false =>
      have hfire : ¬ d + P.select_timeout_ms > P.kbd_repeat_delay_ms := by
        rw [if_neg (by simp)] at hle
        linarith
      have hstep : stepInput P (oneKeyState c true false d) Input.timeout
          = (some (oneKeyState c true false (d + P.select_timeout_ms)), []) := by
        rw [stepInput_timeout, onTick_oneKey_live_repeat, if_neg hfire]
      rw [List.replicate_succ, run_cons_some P _ _ _ _ _ hstep,
        ih (d + P.select_timeout_ms) ht hk2]
      rw [harith]
      push_cast
      simp

/-! ## C2: first-hold threshold crossing -/

/-- C2: starting from the initial state, observe exactly one event for a key
`X` and then apply `k + j` ticks whose accumulated time exceeds
`kbd_init_delay_ms` (already after the first `k` of them): the release hook
for `X` fires exactly once, `pressed[X]` ends up false, and the `j`
additional ticks fire no further release for `X`. -/
theorem first_hold_release_once (P : Params) (X : KeyCode) (k j : Nat)
    (hX : X ≠ sentinel_char) (hinit : 0 < P.kbd_init_delay_ms)
    (ht : 0 < P.select_timeout_ms)
    (hk : P.kbd_init_delay_ms < (k : ℤ) * P.select_timeout_ms) :
    (run P initState
        (Input.key X :: List.replicate (k + j) Input.timeout)).2.count
      (HookEv.release X) = 1 ∧
    (run P initState
        (Input.key X :: List.replicate (k + j) Input.timeout)).1.pressed X
      = false := by
  have hstep : stepInput P initState (Input.key X)
      = (some (oneKeyState X true true 0),
         if X ∈ P.up_keys then [HookEv.press X] else []) := by
    rw [stepInput, if_neg hX, onEventObserved_init]
  have hjt : 0 ≤ (j : ℤ) * P.select_timeout_ms := by positivity
  have hgt : P.kbd_init_delay_ms
      < 0 + ((k + j : ℕ) : ℤ) * P.select_timeout_ms := by
    push_cast
    nlinarith
  obtain ⟨dfin, hrun⟩ := run_timeouts_live_first P X (k + j) 0 ht le_rfl
    (le_of_lt hinit) hgt
  rw [run_cons_some P _ _ _ _ _ hstep, hrun]
  constructor
  · show ((if X ∈ P.up_keys then [HookEv.press X] else [])
        ++ [HookEv.release X]).count (HookEv.release X) = 1
    rw [List.count_append]
    have h0 : (if X ∈ P.up_keys then [HookEv.press X] else []).count
        (HookEv.release X) = 0 := by
      split_ifs <;> simp [List.count_cons]
    rw [h0]
    simp
  · show (oneKeyState X false true dfin).pressed X = false
    simp [oneKeyState, updFn]

/-- Witness for C2: key `"[A"` with the demo parameters, 31 ticks of 10 ms
crossing the 300 ms initial delay, and 2 extra ticks. -/
theorem first_hold_release_once_witness :
    (run demoParams initState
        (Input.key "[A" :: List.replicate (31 + 2) Input.timeout)).2.count
      (HookEv.release "[A") = 1 ∧
    (run demoParams initState
        (Input.key "[A" :: List.replicate (31 + 2) Input.timeout)).1.pressed "[A"
      = false :=
  first_hold_release_once demoParams "[A" 31 2 (by decide) (by decide)
    (by decide) (by decide)

/-! ## C3: sustained repeat keeps the key pressed -/

theorem run_cycles_steady (P : Params) (X : KeyCode) (m : Nat) (n : Nat) :
    ∀ (b : Bool) (d : Int),
    X ≠ sentinel_char → 0 < P.select_timeout_ms →
    (m : ℤ) * P.select_timeout_ms ≤ P.kbd_repeat_delay_ms →
    ∃ (b2 : Bool) (d2 : Int),
      run P (oneKeyState X true b d) (repeatCycles X m n)
        = (oneKeyState X true b2 d2, []) := by
  induction n with
  | zero =>
    intro b d _ _ _
    exact ⟨b, d, rfl⟩
  | succ n2 ih =>
    intro b d hX ht hm
    rw [repeatCycles]
    have hstep : stepInput P (oneKeyState X true b d) (Input.key X)
        = (some (oneKeyState X true false 0), []) := by
      rw [stepInput, if_neg hX, onEventObserved_oneKey_pressed]
    rw [run_cons_some P _ _ _ _ _ hstep, run_replicate_timeout_append]
    have hnf := run_timeouts_no_fire P X false m 0 ht
      (by rw [if_neg (by simp)]; linarith)
    rw [hnf]
    obtain ⟨b2, d2, hrec⟩ := ih false (0 + (m : ℤ) * P.select_timeout_ms)
      hX ht hm
    rw [hrec]
    exact ⟨b2, d2, by simp⟩

/-- C3: feeding events for a key `X` (with a registered press hook) spaced at
`kbd_repeat_delay_ms / 2` — each cycle an event followed by `m` ticks whose
accumulated time is half the repeat interval — for 10 cycles, with the usual
calibration relation `kbd_repeat_delay_ms ≤ kbd_init_delay_ms`, produces
exactly one press-hook invocation (on the first event) and no release-hook
invocation. -/
theorem sustained_repeat_press_once (P : Params) (X : KeyCode) (m : Nat)
    (hX : X ≠ sentinel_char) (hup : X ∈ P.up_keys)
    (ht : 0 < P.select_timeout_ms)
    (hri : P.kbd_repeat_delay_ms ≤ P.kbd_init_delay_ms)
    (hm : 2 * ((m : ℤ) * P.select_timeout_ms) = P.kbd_repeat_delay_ms) :
    (run P initState (repeatCycles X m 10)).2 = [HookEv.press X] ∧
    (run P initState (repeatCycles X m 10)).2.count (HookEv.press X) = 1 ∧
    (run P initState (repeatCycles X m 10)).2.count (HookEv.release X) = 0 := by
  have hmt : 0 ≤ (m : ℤ) * P.select_timeout_ms := by positivity
  have hmrep : (m : ℤ) * P.select_timeout_ms ≤ P.kbd_repeat_delay_ms := by
    linarith
  have hminit : (m : ℤ) * P.select_timeout_ms ≤ P.kbd_init_delay_ms :=
    le_trans hmrep hri
  have hmain : (run P initState (repeatCycles X m 10)).2 = [HookEv.press X] := by
    have h10 : repeatCycles X m 10
        = Input.key X :: (List.replicate m Input.timeout ++ repeatCycles X m 9) := by
      show repeatCycles X m (9 + 1) = _
      rw [repeatCycles]
    have hstep : stepInput P initState (Input.key X)
        = (some (oneKeyState X true true 0), [HookEv.press X]) := by
      rw [stepInput, if_neg hX, onEventObserved_init, if_pos hup]
    rw [h10, run_cons_some P _ _ _ _ _ hstep, run_replicate_timeout_append]
    have hnf := run_timeouts_no_fire P X true m 0 ht
      (by rw [if_pos rfl]; linarith)
    rw [hnf]
    obtain ⟨b2, d2, hrec⟩ := run_cycles_steady P X m 9 true
      (0 + (m : ℤ) * P.select_timeout_ms) hX ht hmrep
    rw [hrec]
    simp
  refine ⟨hmain, ?_, ?_⟩
  · rw [hmain]
    simp
  · rw [hmain]
    simp [List.count_cons]

/-- Witness for C3: key `"[A"` with the demo parameters (`m = 2` ticks of
10 ms give the 20 ms half-repeat spacing). -/
theorem sustained_repeat_press_once_witness :
    (run demoParams initState (repeatCycles "[A" 2 10)).2
      = [HookEv.press "[A"] ∧
    (run demoParams initState (repeatCycles "[A" 2 10)).2.count
      (HookEv.press "[A") = 1 ∧
    (run demoParams initState (repeatCycles "[A" 2 10)).2.count
      (HookEv.release "[A") = 0 :=
  sustained_repeat_press_once demoParams "[A" 2 (by decide) (by decide)
    (by decide) (by decide) (by decide)

/-! ## C1: the calibration formula -/

theorem pairwise_diff_sum (L : List ℚ) :
    (List.zipWith (fun a b => b - a) L (L.drop 1)).sum
      = ((List.range (L.length - 1)).map
          (fun i => L.getD (i + 1) 0 - L.getD i 0)).sum := by
  induction L with
  | nil => rfl
  | cons a M ih =>
    cases M with
    | nil => rfl
    | cons b M2 =>
      have hlen : (a :: b :: M2).length - 1 = ((b :: M2).length - 1) + 1 := by
        simp
      rw [hlen, List.range_succ_eq_map, List.map_cons, List.sum_cons,
        List.map_map]
      have hzip : (List.zipWith (fun a b => b - a) (a :: b :: M2)
            ((a :: b :: M2).drop 1)).sum
          = (b - a)
            + (List.zipWith (fun a b => b - a) (b :: M2)
                ((b :: M2).drop 1)).sum := by
        simp
      rw [hzip, ih]
      simp only [Function.comp, List.getD_cons_succ, List.getD_cons_zero,
        List.length_cons, Nat.add_sub_cancel, List.sum_cons]
      congr 1

/-- C1: for every list of at least three monotonic timestamps and every
nonnegative margin percentage, calibration returns
`round((t[1] - t[0]) * 1000 * (1 + error/100))` as the initial delay and
`round(mean(t[i+1] - t[i] for i in [1, n-2]) * 1000 * (1 + error/100))` as
the repeat interval (the index-based mean written with a shift so that `i`
ranges over `0 .. n-3`). -/
theorem calibrate_formula (ts : List ℚ) (error : ℤ)
    (hlen : 3 ≤ ts.length) (hmono : List.Chain' (· ≤ ·) ts) (herr : 0 ≤ error) :
    calibrate_keyboard_delays ts error
      = some
          (py_round
            ((ts.getD 1 0 - ts.getD 0 0) * 1000 * (1 + (error : ℚ) / 100)),
           py_round
            ((((List.range (ts.length - 2)).map
                  (fun i => ts.getD (i + 2) 0 - ts.getD (i + 1) 0)).sum
                / ((ts.length : ℚ) - 2))
              * 1000 * (1 + (error : ℚ) / 100))) := by
  rcases ts with _ | ⟨t0, _ | ⟨t1, _ | ⟨t2, rest⟩⟩⟩
  · simp at hlen
  · simp at hlen
  · simp at hlen
  · rw [calibrate_keyboard_delays]
    have hL : (t0 :: t1 :: t2 :: rest).length - 2
        = (t1 :: t2 :: rest).length - 1 := by
      simp
    have hsum := pairwise_diff_sum (t1 :: t2 :: rest)
    have hdrop : (t1 :: t2 :: rest).drop 1 = t2 :: rest := rfl
    rw [hdrop] at hsum
    have hmap : (List.range ((t0 :: t1 :: t2 :: rest).length - 2)).map
          (fun i => (t0 :: t1 :: t2 :: rest).getD (i + 2) 0
            - (t0 :: t1 :: t2 :: rest).getD (i + 1) 0)
        = (List.range ((t1 :: t2 :: rest).length - 1)).map
          (fun i => (t1 :: t2 :: rest).getD (i + 1) 0
            - (t1 :: t2 :: rest).getD i 0) := by
      rw [hL]
      congr 1
    have hlen2 : (((t0 :: t1 :: t2 :: rest).length : ℚ) - 2)
        = (((List.zipWith (fun a b => b - a) (t1 :: t2 :: rest)
            (t2 :: rest)).length : ℚ)) := by
      simp
      ring
    rw [hmap, ← hsum, hlen2]
    simp

/-- Witness for C1, the spec's concrete test: timestamps 0, 300, 340, 380 and
420 milliseconds (0, 3/10, 17/50, 19/50, 21/50 seconds) with zero margin give
an initial delay of 300 ms and a repeat interval of 40 ms. -/
theorem calibrate_formula_witness :
    calibrate_keyboard_delays [0, 3/10, 17/50, 19/50, 21/50] 0
      = some (300, 40) := by
  have h := calibrate_formula [0, 3/10, 17/50, 19/50, 21/50] 0 (by norm_num)
    (by norm_num [List.chain'_cons]) (by norm_num)
  rw [h]
  norm_num [py_round, List.range_succ]

end KbdRelease
